import Mathlib

set_option maxHeartbeats 1000000

/-!
# CodeCondenser core: shallow embedding and verification

This file embeds the core logic of `code-condenser.py` (the exclusion
engine with its gitignore-style pattern matcher, the directory-tree
collector, the output formatter, and the boundary-preserving chunk
splitter) as executable Lean definitions, and proves properties of the
embedded code.

Python strings are modelled as `List Char` (`Txt`); the filesystem is
modelled as a rose tree of named files and directories.
-/

/-- Python strings are modelled as lists of characters. -/
abbrev Txt := List Char

/-- Conversion from Lean string literals, used for concrete inputs. -/
def strL (s : String) : Txt := s.toList

/-- `a.startswith(b)` on Python strings. -/
def txtStartsWith : Txt → Txt → Bool
  | _, [] => true
  | [], _ :: _ => false
  | a :: as, b :: bs => a = b && txtStartsWith as bs

/-- `a.endswith(b)` on Python strings. -/
def txtEndsWith (a b : Txt) : Bool :=
  txtStartsWith a.reverse b.reverse

/-- `s.rstrip('/')`: drop every trailing `'/'`. -/
def rstripSlash (s : Txt) : Txt :=
  (s.reverse.dropWhile (fun c => c = '/')).reverse

/-- `s.lstrip('/')`: drop every leading `'/'`. -/
def lstripSlash (s : Txt) : Txt :=
  s.dropWhile (fun c => c = '/')

/-- ASCII whitespace recognised by Python's `str.strip()`. -/
def pyIsSpace (c : Char) : Bool :=
  c = ' ' || c = '\t' || c = '\n' || c = '\r' || c = '\x0b' || c = '\x0c'

/-- `s.strip()`: drop leading and trailing whitespace. -/
def pyStrip (s : Txt) : Txt :=
  ((s.dropWhile pyIsSpace).reverse.dropWhile pyIsSpace).reverse

/-- `s.split('/')`: split a path into its `'/'`-separated components. -/
def splitChars : Txt → List Txt
  | [] => [[]]
  | c :: rest =>
    if c = '/' then [] :: splitChars rest
    else
      match splitChars rest with
      | [] => [[c]]
      | h :: t => (c :: h) :: t

/-- `os.path.basename` on a forward-slash path: the text after the last `'/'`. -/
def basenameOf (p : Txt) : Txt :=
  (splitChars p).getLastD []

/--
`fnmatch.fnmatchcase` pattern interpreter: `matchRun pat name` decides
whether glob pattern `pat` matches all of `name`, case-sensitively, with
`*` matching any run of characters (including `'/'`: `fnmatch` gives
`/` no special treatment) and `?` matching exactly one character.
Bracket classes of `fnmatch` are not modelled; no pattern used by the
program's rule lists contains one.
-/
def matchRun : Txt → Txt → Bool
  | [], name => name.isEmpty
  | c :: ps, name =>
    if c = '*' then name.tails.any (fun s => matchRun ps s)
    else if c = '?' then
      match name with
      | [] => false
      | _ :: cs => matchRun ps cs
    else
      match name with
      | [] => false
      | c2 :: cs => c = c2 && matchRun ps cs

/-- `fnmatch.fnmatchcase(name, pat)` (argument order as in Python). -/
def fnmatchcase (name pat : Txt) : Bool :=
  matchRun pat name

/-!
## Chunk splitter (`CodeBaseAnalyzer.split_content_smart`)
-/

/--
Python `str.splitlines(keepends=True)`: split into lines, keeping the
terminators.  `"\r\n"` counts as a single terminator; the recognised
single-character terminators are those of Python's `str.splitlines`.
-/
def isLineBreak (c : Char) : Bool :=
  c = '\n' || c = '\r' || c = '\x0b' || c = '\x0c' ||
  c = '\x1c' || c = '\x1d' || c = '\x1e' || c = '\x85' || c = '\u2028' || c = '\u2029'

/-- Worker for `splitlinesKeepends`; `acc` holds the current line reversed. -/
def splitLinesAux (acc : Txt) : Txt → List Txt
  | [] => if acc.isEmpty then [] else [acc.reverse]
  | c :: rest =>
    if c = '\r' then
      match rest with
      | c2 :: rest2 =>
        if c2 = '\n' then (acc.reverse ++ ['\r', '\n']) :: splitLinesAux [] rest2
        else (acc.reverse ++ ['\r']) :: splitLinesAux [] (c2 :: rest2)
      | [] => (acc.reverse ++ ['\r']) :: splitLinesAux [] []
    else if isLineBreak c then (acc.reverse ++ [c]) :: splitLinesAux [] rest
    else splitLinesAux (c :: acc) rest

/-- `content.splitlines(keepends=True)`. -/
def splitlinesKeepends (content : Txt) : List Txt :=
  splitLinesAux [] content

/-- The file-record boundary marker `">>>File: "`. -/
def fileMarker : Txt := strL ">>>File: "

/-- Indices of the lines that start with the file marker
(`[i for i, line in enumerate(lines) if line.startswith(file_marker)]`). -/
def markerIndices (lines : List Txt) : List Nat :=
  lines.enum.filterMap (fun p => if txtStartsWith p.2 fileMarker then some p.1 else none)

/--
The blocks delimited by the marker indices `ms` (sorted, as produced by
`markerIndices`): for each marker index `m`, the lines from `m`
(the marker line itself) up to the next marker index, the last block
running to the end of `lines`.
-/
def blocksFrom (lines : List Txt) : List Nat → List (List Txt)
  | [] => []
  | [m] => [lines.drop m]
  | m :: m2 :: ms => ((lines.drop m).take (m2 - m)) :: blocksFrom lines (m2 :: ms)

/--
All blocks of `lines` in order: the implicit zeroth block (everything
before the first marker, possibly empty) followed by one block per
marker line, exactly as `split_content_smart` slices them out of
`marker_indices = [-1] + [...]`.
-/
def blocksOf (lines : List Txt) : List (List Txt) :=
  let ms := markerIndices lines
  lines.take (ms.headD lines.length) :: blocksFrom lines ms

/-- Accumulator of the splitter loop: finished parts, the pending
`current_part_lines`, and `current_line_count`. -/
structure SplitSt where
  parts : List Txt
  cur : List Txt
  cnt : Nat

/-- One iteration of the block loop in `split_content_smart`. -/
def splitStep (maxLines : Nat) (st : SplitSt) (block : List Txt) : SplitSt :=
  if block.isEmpty then st
  else if maxLines < block.length then
    let parts := if st.cur.isEmpty then st.parts else st.parts ++ [st.cur.flatten]
    { parts := parts ++ [block.flatten], cur := [], cnt := 0 }
  else if 0 < st.cnt ∧ maxLines < st.cnt + block.length then
    { parts := st.parts ++ [st.cur.flatten], cur := block, cnt := block.length }
  else
    { parts := st.parts, cur := st.cur ++ block, cnt := st.cnt + block.length }

/--
`CodeBaseAnalyzer.split_content_smart(content, max_lines)`: split the
combined output text into parts, keeping each marker-to-next-marker
block whole.
-/
def split_content_smart (content : Txt) (maxLines : Nat) : List Txt :=
  if content.isEmpty then []
  else
    let lines := splitlinesKeepends content
    if lines.isEmpty then []
    else
      let st := (blocksOf lines).foldl (splitStep maxLines) ⟨[], [], 0⟩
      st.parts ++ (if st.cur.isEmpty then [] else [st.cur.flatten])

/-- The text a splitter state will still contribute to the output. -/
def stText (st : SplitSt) : Txt :=
  st.parts.flatten ++ st.cur.flatten


/-!
### C2: segments are concatenations of whole blocks

`PackSt` is a ghost version of the splitter state that keeps the blocks
of each part instead of flattening them to text; `packStep` mirrors
`splitStep` exactly.  Relating the two shows each returned segment is a
concatenation of whole blocks.
-/

/-- The text of a group of blocks (each block a list of lines). -/
def groupText (g : List (List Txt)) : Txt := g.flatten.flatten

/-- Ghost splitter state: like `SplitSt` but parts keep their blocks. -/
structure PackSt where
  groups : List (List (List Txt))
  cur : List (List Txt)
  cnt : Nat

/-- Ghost version of `splitStep`, branch for branch. -/
def packStep (maxLines : Nat) (st : PackSt) (block : List Txt) : PackSt :=
  if block.isEmpty then st
  else if maxLines < block.length then
    let groups := if st.cur.isEmpty then st.groups else st.groups ++ [st.cur]
    { groups := groups ++ [[block]], cur := [], cnt := 0 }
  else if 0 < st.cnt ∧ maxLines < st.cnt + block.length then
    { groups := st.groups ++ [st.cur], cur := [block], cnt := block.length }
  else
    { groups := st.groups, cur := st.cur ++ [block], cnt := st.cnt + block.length }

/-- A group fits the budget or is a single oversized block. -/
def GoodGroup (m : Nat) (g : List (List Txt)) : Prop :=
  (g.map List.length).sum ≤ m ∨ ∃ b, g = [b] ∧ m < b.length

/-- Correspondence between the real splitter state and the ghost state,
together with the invariants of the packing loop. -/
def CorrInv (m : Nat) (s : SplitSt) (p : PackSt) : Prop :=
  s.parts = p.groups.map groupText ∧
  s.cur = p.cur.flatten ∧
  s.cnt = p.cnt ∧
  (∀ b ∈ p.cur, b ≠ []) ∧
  p.cnt = (p.cur.map List.length).sum ∧
  p.cnt ≤ m ∧
  (∀ g ∈ p.groups, GoodGroup m g)

/-!
## Gitignore-style exclusion (`ProcessWorker._is_excluded_by_gitignore`)
-/

/--
One iteration of the pattern loop of
`ProcessWorker._is_excluded_by_gitignore`, for a single raw pattern:
`some verdict` models an early `return verdict`, `none` models
`continue` (the degenerate-pattern skips and the no-match fall-through).
-/
def gitignoreStep (pattern0 path : Txt) (isDir : Bool) : Option Bool :=
  let isNegation := txtStartsWith pattern0 (strL "!")
  let p1 := if isNegation then pattern0.drop 1 else pattern0
  if isNegation ∧ p1 = [] then none
  else
    let isDirPattern := txtEndsWith p1 (strL "/")
    let p2 := rstripSlash p1
    if p2 = [] then none
    else
      let m :=
        if txtStartsWith p2 (strL "/") then
          let p3 := lstripSlash p2
          fnmatchcase path p3 ||
            (isDir && txtStartsWith path (p3 ++ strL "/")) ||
            (!isDir && txtStartsWith path (p3 ++ strL "/"))
        else
          let components := splitChars path
          fnmatchcase (basenameOf path) p2 ||
            components.any (fun comp => fnmatchcase comp p2)
      let m2 := if m && isDirPattern && !isDir then false else m
      if m2 then some (!isNegation) else none

/--
Whether one loop iteration of the gitignore check treats the pattern as
matching the path, i.e. produces a verdict (a `return`): the final
value of the loop body's `match` flag, `false` for the degenerate
patterns the loop skips.  Negation does not influence this value; it
only decides the returned verdict.
-/
def patternMatches (pattern0 path : Txt) (isDir : Bool) : Bool :=
  (gitignoreStep pattern0 path isDir).isSome

/--
`ProcessWorker._is_excluded_by_gitignore(rel_path)`: iterate the loaded
patterns in declaration order; the first pattern that produces a
verdict returns it, and falling off the loop returns `False`.  The
`is_dir` flag, looked up from the filesystem in the Python code, is
passed explicitly.
-/
def is_excluded_by_gitignore : List Txt → Txt → Bool → Bool
  | [], _, _ => false
  | pattern0 :: rest, path, isDir =>
    match gitignoreStep pattern0 path isDir with
    | some b => b
    | none => is_excluded_by_gitignore rest path isDir

/--
`ProcessWorker._load_gitignore`: each line of the ignore file is
stripped of surrounding whitespace; lines that are then empty or start
with `#` are skipped, the rest are appended in order.
-/
def load_gitignore (fileLines : List Txt) : List Txt :=
  fileLines.foldl
    (fun patterns line =>
      let l := pyStrip line
      if !l.isEmpty && !txtStartsWith l (strL "#") then patterns ++ [l]
      else patterns)
    []

/-!
## Tree collection (`ProcessWorker.run`)
-/

/-- A model filesystem subtree: named files (with decoded content) and
named directories. -/
inductive FSEntry where
  | file (name : Txt) (content : Txt)
  | dir (name : Txt) (children : List FSEntry)

/-- The subdirectory names of a directory, in `os.walk` order. -/
def dirNamesOf (children : List FSEntry) : List Txt :=
  children.filterMap (fun e =>
    match e with
    | .dir n _ => some n
    | .file _ _ => none)

/-- The file names of a directory, in `os.walk` order. -/
def fileNamesOf (children : List FSEntry) : List Txt :=
  children.filterMap (fun e =>
    match e with
    | .file n _ => some n
    | .dir _ _ => none)

mutual
/-- A structural size bound used as recursion fuel for the walk. -/
def entryFuel : FSEntry → Nat
  | .file _ _ => 1
  | .dir _ cs => 1 + listFuel cs
/-- Size bound of a list of sibling entries. -/
def listFuel : List FSEntry → Nat
  | [] => 0
  | e :: es => 1 + entryFuel e + listFuel es
end

mutual
/-- Well-formedness of a model filesystem entry: names contain no `/`
(true of any real directory tree). -/
def entryWF : FSEntry → Bool
  | .file n _ => decide ('/' ∉ n)
  | .dir n cs => decide ('/' ∉ n) && fsWF cs
/-- Well-formedness of a list of sibling entries. -/
def fsWF : List FSEntry → Bool
  | [] => true
  | e :: es => entryWF e && fsWF es
end

/-- `DEFAULT_EXCLUDE_DIRS` of the source configuration block. -/
def DEFAULT_EXCLUDE_DIRS : List Txt :=
  [strL ".git", strL "node_modules", strL "venv", strL "__pycache__",
   strL "build", strL "dist", strL ".svn", strL "env", strL ".idea",
   strL ".vscode", strL "target", strL "out"]

/-- `DEFAULT_EXCLUDE_FILES` of the source configuration block. -/
def DEFAULT_EXCLUDE_FILES : List Txt :=
  [strL "package-lock.json", strL "yarn.lock", strL "*.pyc", strL "*.pyo",
   strL "*.exe", strL "*.dll", strL "*.so", strL "*.dylib", strL "*.o",
   strL "*.a", strL "*.class", strL "*.jar"]

/-- `DEFAULT_EXCLUDE_EXTENSIONS` of the source configuration block. -/
def DEFAULT_EXCLUDE_EXTENSIONS : List Txt :=
  [strL ".jpg", strL ".jpeg", strL ".png", strL ".gif", strL ".bmp",
   strL ".svg", strL ".ico", strL ".tif", strL ".tiff",
   strL ".mp4", strL ".avi", strL ".mov", strL ".wmv", strL ".flv",
   strL ".mkv",
   strL ".mp3", strL ".wav", strL ".ogg", strL ".aac", strL ".flac",
   strL ".ttf", strL ".otf", strL ".woff", strL ".woff2", strL ".eot",
   strL ".zip", strL ".rar", strL ".tar", strL ".gz", strL ".7z",
   strL ".bz2", strL ".iso",
   strL ".pdf", strL ".doc", strL ".docx", strL ".xls", strL ".xlsx",
   strL ".ppt", strL ".pptx", strL ".odt", strL ".ods", strL ".odp",
   strL ".db", strL ".sqlite", strL ".sqlite3", strL ".log", strL ".tmp",
   strL ".bak", strL ".swp",
   strL ".bin", strL ".dat", strL ".cache", strL ".img", strL ".dmg",
   strL ".pkl", strL ".joblib"]

/--
The worker's rule configuration (`ProcessWorker.__init__`).  The loaded
`gitignore_patterns` list stands in for `use_gitignore`: it is empty
when the flag is off or the ignore file is absent, which makes the
gitignore checks in `run` no-ops exactly as in the source.
-/
structure RuleSet where
  exclude_dirs : List Txt
  exclude_files : List Txt
  exclude_extensions : List Txt
  gitignore_patterns : List Txt

/-- The default rule set with no ignore file present. -/
def defaultRuleSet : RuleSet :=
  { exclude_dirs := DEFAULT_EXCLUDE_DIRS,
    exclude_files := DEFAULT_EXCLUDE_FILES,
    exclude_extensions := DEFAULT_EXCLUDE_EXTENSIONS,
    gitignore_patterns := [] }

/-- `os.path.join(rel_root, name) if rel_root else name`, with `/`. -/
def joinPath (relRoot name : Txt) : Txt :=
  if relRoot = [] then name else relRoot ++ '/' :: name

/--
`os.path.splitext(name)[1]`: the suffix from the last `.` on, but empty
when there is no dot or when every character before the last dot is a
dot (so `".gitignore"` and `"..foo"` have no extension).
-/
def extOf (name : Txt) : Txt :=
  let pre := name.reverse.takeWhile (fun c => decide (c ≠ '.'))
  if pre.length = name.length then []
  else
    let sepIndex := name.length - pre.length - 1
    if (name.take sepIndex).any (fun c => decide (c ≠ '.')) then
      name.drop sepIndex
    else []

/-- `s.lower()` (ASCII, which covers every configured extension). -/
def lowerTxt (s : Txt) : Txt := s.map Char.toLower

/-- Walk state: `collected_items` and the `processed_paths` seen-set. -/
structure CState where
  items : List (Txt × Bool)
  seen : List Txt

/-- Register a surviving subdirectory as a directory entry
(deduplicated through `processed_paths`). -/
def dirRegister (relRoot : Txt) (st : CState) (name : Txt) : CState :=
  let norm := joinPath relRoot name
  if norm ∈ st.seen then st
  else { items := st.items ++ [(norm, true)], seen := st.seen ++ [norm] }

/-- Process one file of the current directory: the name/pattern check
against `exclude_files`, the lowercased-extension check, and the
gitignore check, in source order; only survivors become entries. -/
def fileStep (rules : RuleSet) (relRoot : Txt) (st : CState) (name : Txt) :
    CState :=
  let norm := joinPath relRoot name
  if norm ∈ st.seen then st
  else if name ∈ rules.exclude_files ∨
      rules.exclude_files.any (fun pat => fnmatchcase name pat) then
    { st with seen := st.seen ++ [norm] }
  else if lowerTxt (extOf name) ∈ rules.exclude_extensions then
    { st with seen := st.seen ++ [norm] }
  else if is_excluded_by_gitignore rules.gitignore_patterns norm false then
    { st with seen := st.seen ++ [norm] }
  else { items := st.items ++ [(norm, false)], seen := st.seen ++ [norm] }

/--
The collection walk of `ProcessWorker.run` (`os.walk` top-down): at
each directory the subdirectory names are filtered against
`exclude_dirs` and then against the gitignore patterns (which prunes
the walk), the surviving directories and files are registered, and the
walk recurses into the surviving subdirectories in order.  `fuel`
bounds the recursion depth only for termination; `collectTree` passes
`listFuel` of the tree plus one, which strictly exceeds its depth, so
the zero-fuel branch is never reached.
-/
def runWalk (rules : RuleSet) : Nat → Txt → List FSEntry → CState → CState
  | 0, _, _, st => st
  | fuel + 1, relRoot, children, st =>
    let dirs1 := (dirNamesOf children).filter
      (fun d => decide (d ∉ rules.exclude_dirs))
    let finalDirs := dirs1.filter (fun d =>
      !is_excluded_by_gitignore rules.gitignore_patterns
        (joinPath relRoot d) true)
    let st1 := finalDirs.foldl (dirRegister relRoot) st
    let st2 := (fileNamesOf children).foldl (fileStep rules relRoot) st1
    children.foldl
      (fun s e =>
        match e with
        | .file _ _ => s
        | .dir n cs =>
          if n ∈ finalDirs then runWalk rules fuel (joinPath relRoot n) cs s
          else s)
      st2

/-- Lexicographic-by-code-point order on paths (Python `str` `<`). -/
def txtLt : Txt → Txt → Bool
  | _, [] => false
  | [], _ :: _ => true
  | a :: as, b :: bs => if a = b then txtLt as bs else decide (a < b)

/-- Python tuple `<=` on `(norm_path, is_dir)` entries, as used by
`collected_items.sort()` (`False < True` on booleans). -/
def entryLeB (x y : Txt × Bool) : Bool :=
  if x.1 = y.1 then !x.2 || y.2 else txtLt x.1 y.1

/-- `ProcessWorker.run`: walk from the root (relative path `""`) and
sort the collected entries (`collected_items.sort()`). -/
def collectTree (rules : RuleSet) (fs : List FSEntry) : List (Txt × Bool) :=
  ((runWalk rules (listFuel fs + 1) [] fs ⟨[], []⟩).items).insertionSort
    (fun x y => entryLeB x y = true)

/-- The component-wise check used to state C5: no directory component
of a collected entry's path (for a file entry, no proper-ancestor
component) has a name in the excluded set. -/
def dirCompsOk (S : List Txt) (p : Txt) (isDir : Bool) : Bool :=
  (if isDir then splitChars p else (splitChars p).dropLast).all
    (fun c => decide (c ∉ S))

/-- The rule set of the C4 scenario: only the two ignore patterns. -/
def exampleRulesC4 : RuleSet :=
  { exclude_dirs := [], exclude_files := [], exclude_extensions := [],
    gitignore_patterns := [strL "build/", strL "!build/keep.txt"] }

/-- The tree of the C4 scenario: `build/tmp.o` and `build/keep.txt`. -/
def exampleTreeC4 : List FSEntry :=
  [.dir (strL "build")
    [.file (strL "tmp.o") [], .file (strL "keep.txt") []]]

/-- The rule set of the C5 witness: exclude directories named `build`. -/
def exampleRulesC5 : RuleSet :=
  { exclude_dirs := [strL "build"], exclude_files := [],
    exclude_extensions := [], gitignore_patterns := [] }

/-- The tree of the C5 witness. -/
def exampleTreeC5 : List FSEntry :=
  [.dir (strL "a") [.file (strL "f.txt") []],
   .dir (strL "build") [.file (strL "g.txt") []]]

/-- The tree of the C6 scenario:
`a/x.py`, `a/b/y.log`, `node_modules/z.js`. -/
def exampleTreeC6 : List FSEntry :=
  [.dir (strL "a")
    [.file (strL "x.py") [],
     .dir (strL "b") [.file (strL "y.log") []]],
   .dir (strL "node_modules") [.file (strL "z.js") []]]

/-!
## Output generation (`ProcessWorker.run`, summary and records)
-/

/--
The output-generation loop of `ProcessWorker.run`: one pass over the
sorted entries, appending a structure line for every entry (when the
summary is requested) and a file record for every file (unless
structure-only), then assembling the summary text and the combined
content.  `readFile` models the text obtained for a path — the decoded
content, the latin-1 fallback text with its warning prefix, or the
bracketed error placeholder; the record wrapper is identical in all
three source branches.

One iteration of the output loop: append the structure line (when
the summary is requested) and the file record (for a file entry, unless
structure-only).  The directory and file markers are the exact
characters of the source file's string literals decoded as UTF-8 —
mojibake of the folder and page emoji: `U+00F0 U+0178 U+201C` plus a
space for directories, with `U+201E` inserted before the space for
files — since those are the code points the program emits. -/
def outputStep (readFile : Txt → Txt) (includeStructure structureOnly : Bool)
    (acc : List Txt × List Txt) (e : Txt × Bool) : List Txt × List Txt :=
  let structureLines :=
    if includeStructure || structureOnly then
      acc.1 ++ [(List.replicate (e.1.count '/') (strL "  ")).flatten ++
        (if e.2 then strL "\u00f0\u0178\u201c " else strL "\u00f0\u0178\u201c\u201e ") ++ basenameOf e.1]
    else acc.1
  let fileContents :=
    if !e.2 && !structureOnly then
      acc.2 ++ [strL ">>>File: " ++ e.1 ++ strL "\n\n" ++ readFile e.1 ++
        strL "\n\n" ++ List.replicate 40 '=' ++ strL "\n"]
    else acc.2
  (structureLines, fileContents)

def generateOutput (items : List (Txt × Bool)) (readFile : Txt → Txt)
    (includeStructure structureOnly : Bool) : Txt × Txt :=
  let acc := items.foldl (outputStep readFile includeStructure structureOnly)
    ([], [])
  let summary :=
    if includeStructure || structureOnly then
      strL "Directory Structure:\n====================\n" ++
        List.intercalate (strL "\n") acc.1 ++ strL "\n\n"
    else []
  let combined := if !structureOnly then acc.2.flatten else []
  (summary, combined)

/-!
### Splitter lemmas
-/

theorem splitLinesAux_flatten (acc cs : Txt) :
    (splitLinesAux acc cs).flatten = acc.reverse ++ cs := by
  induction acc, cs using splitLinesAux.induct
  all_goals rw [splitLinesAux.eq_def]
  all_goals simp_all
  all_goals assumption

/-- Splitting into lines is lossless. -/
theorem splitlinesKeepends_flatten (content : Txt) :
    (splitlinesKeepends content).flatten = content := by
  simpa using splitLinesAux_flatten [] content

theorem blocksFrom_flatten (lines : List Txt) (ms : List Nat)
    (hs : ms.Pairwise (· ≤ ·)) :
    (blocksFrom lines ms).flatten = lines.drop (ms.headD lines.length) := by
  induction ms with
  | nil => simp [blocksFrom]
  | cons m tl ih =>
    cases tl with
    | nil => simp [blocksFrom]
    | cons m2 ms2 =>
      have hm : m ≤ m2 := (List.pairwise_cons.mp hs).1 m2 (by simp)
      have ih2 := ih (List.Pairwise.sublist (List.sublist_cons_self m _) hs)
      simp only [blocksFrom, List.flatten_cons, ih2, List.headD_cons]
      have h1 : lines.drop m2 = (lines.drop m).drop (m2 - m) := by
        rw [List.drop_drop]
        congr 1
        omega
      rw [h1, List.take_append_drop]

theorem markerIndicesFrom_pairwise (lines : List Txt) :
    ∀ k : Nat,
      ((lines.enumFrom k).filterMap
        (fun p => if txtStartsWith p.2 fileMarker then some p.1 else none)).Pairwise (· ≤ ·)
      ∧ ∀ x ∈ (lines.enumFrom k).filterMap
          (fun p => if txtStartsWith p.2 fileMarker then some p.1 else none), k ≤ x := by
  induction lines with
  | nil => intro k; simp
  | cons a l ih =>
    intro k
    obtain ⟨ihp, ihb⟩ := ih (k + 1)
    by_cases h : txtStartsWith a fileMarker
    · refine ⟨?_, ?_⟩
      · simp only [List.enumFrom_cons, List.filterMap_cons, h, if_pos]
        exact List.pairwise_cons.mpr ⟨fun x hx => by have := ihb x hx; omega, ihp⟩
      · intro x hx
        simp only [List.enumFrom_cons, List.filterMap_cons, h, if_pos,
          List.mem_cons] at hx
        rcases hx with rfl | hx
        · omega
        · have := ihb x hx; omega
    · refine ⟨?_, ?_⟩
      · simpa only [List.enumFrom_cons, List.filterMap_cons, h, if_neg,
          Bool.false_eq_true, ite_false] using ihp
      · intro x hx
        simp only [List.enumFrom_cons, List.filterMap_cons, h,
          Bool.false_eq_true, ite_false] at hx
        have := ihb x hx; omega

theorem markerIndices_pairwise (lines : List Txt) :
    (markerIndices lines).Pairwise (· ≤ ·) := by
  have h := (markerIndicesFrom_pairwise lines 0).1
  simpa [markerIndices, List.enum] using h

/-- The blocks cover the lines exactly, in order. -/
theorem blocksOf_flatten (lines : List Txt) :
    (blocksOf lines).flatten = lines := by
  simp only [blocksOf, List.flatten_cons,
    blocksFrom_flatten lines _ (markerIndices_pairwise lines)]
  exact List.take_append_drop _ lines

theorem splitStep_stText (maxLines : Nat) (st : SplitSt) (block : List Txt) :
    stText (splitStep maxLines st block) = stText st ++ block.flatten := by
  by_cases h0 : block.isEmpty
  · have : block = [] := by simpa using h0
    simp [splitStep, h0, stText, this]
  · by_cases h1 : maxLines < block.length
    · by_cases h2 : st.cur.isEmpty
      · have : st.cur = [] := by simpa using h2
        simp [splitStep, h0, h1, h2, stText, this]
      · simp [splitStep, h0, h1, h2, stText]
    · by_cases h2 : 0 < st.cnt ∧ maxLines < st.cnt + block.length
      · simp [splitStep, h0, h1, h2, stText]
      · simp [splitStep, h0, h1, h2, stText]

theorem foldl_splitStep_stText (maxLines : Nat) (blocks : List (List Txt))
    (st : SplitSt) :
    stText (blocks.foldl (splitStep maxLines) st)
      = stText st ++ blocks.flatten.flatten := by
  induction blocks generalizing st with
  | nil => simp
  | cons b bs ih => simp [ih, splitStep_stText, List.append_assoc]

/-- The final flush: what `split_content_smart` returns joins to `stText`. -/
theorem finalParts_flatten (st : SplitSt) :
    (st.parts ++ (if st.cur.isEmpty then [] else [st.cur.flatten])).flatten
      = stText st := by
  by_cases h : st.cur.isEmpty
  · have : st.cur = [] := by simpa using h
    simp [stText, h, this]
  · simp [stText, h]

/-- C1 (helper): the splitter is lossless on every input. -/
theorem split_content_smart_flatten (content : Txt) (maxLines : Nat) :
    (split_content_smart content maxLines).flatten = content := by
  by_cases h0 : content.isEmpty
  · have : content = [] := by simpa using h0
    simp [split_content_smart, h0, this]
  · by_cases h1 : (splitlinesKeepends content).isEmpty
    · exfalso
      have h2 : splitlinesKeepends content = [] := by simpa using h1
      have h3 := splitlinesKeepends_flatten content
      rw [h2] at h3
      simp only [List.flatten_nil] at h3
      subst h3
      exact h0 rfl
    · have h0' : content.isEmpty = false := by rwa [Bool.not_eq_true] at h0
      have h1' : (splitlinesKeepends content).isEmpty = false := by
        rwa [Bool.not_eq_true] at h1
      simp only [split_content_smart, h0', h1', Bool.false_eq_true, if_false]
      rw [finalParts_flatten, foldl_splitStep_stText]
      simp [stText, blocksOf_flatten, splitlinesKeepends_flatten]

/--
Claim C1: The chunk splitter is lossless: for every input text and
every line budget `maxLines ≥ 1`, concatenating all segments returned by
`split_content_smart` in order yields exactly the input, and the empty
input yields an empty list of segments.
-/
theorem splitter_lossless (content : Txt) (maxLines : Nat) (h : 1 ≤ maxLines) :
    (split_content_smart content maxLines).flatten = content ∧
    (content = [] → split_content_smart content maxLines = []) := by
  refine ⟨split_content_smart_flatten content maxLines, fun hc => ?_⟩
  simp [split_content_smart, hc]

theorem flatten_isEmpty_sync (cur : List (List Txt))
    (h : ∀ b ∈ cur, b ≠ []) : cur.flatten.isEmpty = cur.isEmpty := by
  cases cur with
  | nil => simp
  | cons b t =>
    have hb := h b (by simp)
    simp only [List.flatten_cons, List.isEmpty_cons]
    cases hbb : b with
    | nil => exact absurd hbb hb
    | cons c cs => simp

theorem splitStep_eq_skip (m : Nat) (st : SplitSt) (b : List Txt)
    (hb : b.isEmpty = true) : splitStep m st b = st := by
  simp [splitStep, hb]

theorem splitStep_eq_over (m : Nat) (st : SplitSt) (b : List Txt)
    (hb : b.isEmpty = false) (hov : m < b.length) :
    splitStep m st b =
      { parts := (if st.cur.isEmpty then st.parts
          else st.parts ++ [st.cur.flatten]) ++ [b.flatten],
        cur := [], cnt := 0 } := by
  simp [splitStep, hb, hov]

theorem splitStep_eq_flush (m : Nat) (st : SplitSt) (b : List Txt)
    (hb : b.isEmpty = false) (hov : ¬ m < b.length)
    (hfit : 0 < st.cnt ∧ m < st.cnt + b.length) :
    splitStep m st b =
      { parts := st.parts ++ [st.cur.flatten], cur := b, cnt := b.length } := by
  simp [splitStep, hb, hov, hfit.1, hfit.2]

theorem splitStep_eq_app (m : Nat) (st : SplitSt) (b : List Txt)
    (hb : b.isEmpty = false) (hov : ¬ m < b.length)
    (hfit : ¬(0 < st.cnt ∧ m < st.cnt + b.length)) :
    splitStep m st b =
      { parts := st.parts, cur := st.cur ++ b, cnt := st.cnt + b.length } := by
  simp only [splitStep, hb, Bool.false_eq_true, if_false, hov, hfit]

theorem packStep_eq_skip (m : Nat) (st : PackSt) (b : List Txt)
    (hb : b.isEmpty = true) : packStep m st b = st := by
  simp [packStep, hb]

theorem packStep_eq_over (m : Nat) (st : PackSt) (b : List Txt)
    (hb : b.isEmpty = false) (hov : m < b.length) :
    packStep m st b =
      { groups := (if st.cur.isEmpty then st.groups
          else st.groups ++ [st.cur]) ++ [[b]],
        cur := [], cnt := 0 } := by
  simp [packStep, hb, hov]

theorem packStep_eq_flush (m : Nat) (st : PackSt) (b : List Txt)
    (hb : b.isEmpty = false) (hov : ¬ m < b.length)
    (hfit : 0 < st.cnt ∧ m < st.cnt + b.length) :
    packStep m st b =
      { groups := st.groups ++ [st.cur], cur := [b], cnt := b.length } := by
  simp [packStep, hb, hov, hfit.1, hfit.2]

theorem packStep_eq_app (m : Nat) (st : PackSt) (b : List Txt)
    (hb : b.isEmpty = false) (hov : ¬ m < b.length)
    (hfit : ¬(0 < st.cnt ∧ m < st.cnt + b.length)) :
    packStep m st b =
      { groups := st.groups, cur := st.cur ++ [b], cnt := st.cnt + b.length } := by
  simp only [packStep, hb, Bool.false_eq_true, if_false, hov, hfit]

theorem corr_step (m : Nat) (s : SplitSt) (p : PackSt) (b : List Txt)
    (h : CorrInv m s p) :
    CorrInv m (splitStep m s b) (packStep m p b) ∧
    (packStep m p b).groups.flatten ++ (packStep m p b).cur
      = (p.groups.flatten ++ p.cur) ++ (if b.isEmpty then [] else [b]) := by
  obtain ⟨h1, h2, h3, h4, h5, h6, h7⟩ := h
  have hsync : s.cur.isEmpty = p.cur.isEmpty := by
    rw [h2]; exact flatten_isEmpty_sync p.cur h4
  by_cases hb : b.isEmpty
  · rw [splitStep_eq_skip m s b hb, packStep_eq_skip m p b hb]
    exact ⟨⟨h1, h2, h3, h4, h5, h6, h7⟩, by simp [hb]⟩
  · have hb0 : b.isEmpty = false := by rwa [Bool.not_eq_true] at hb
    have hb' : b ≠ [] := List.isEmpty_eq_false.mp hb0
    by_cases hov : m < b.length
    · rw [splitStep_eq_over m s b hb0 hov, packStep_eq_over m p b hb0 hov]
      refine ⟨⟨?_, rfl, rfl, by simp, rfl, by simp, ?_⟩, ?_⟩
      · rw [hsync]
        by_cases hc : p.cur.isEmpty
        · simp [hc, h1, groupText]
        · have hc0 : p.cur.isEmpty = false := by rwa [Bool.not_eq_true] at hc
          simp [hc0, h1, h2, groupText]
      · intro g hg
        simp only [List.mem_append, List.mem_singleton] at hg
        rcases hg with hg | hg
        · by_cases hc : p.cur.isEmpty
          · simp only [hc, if_true] at hg
            exact h7 g hg
          · have hc0 : p.cur.isEmpty = false := by rwa [Bool.not_eq_true] at hc
            simp only [hc0, Bool.false_eq_true, if_false, List.mem_append,
              List.mem_singleton] at hg
            rcases hg with hg | hg
            · exact h7 g hg
            · subst hg
              exact Or.inl (by omega)
        · subst hg
          exact Or.inr ⟨b, rfl, by simpa using hov⟩
      · by_cases hc : p.cur.isEmpty
        · have hc' : p.cur = [] := List.isEmpty_iff.mp hc
          simp [hc, hc', hb0]
        · have hc0 : p.cur.isEmpty = false := by rwa [Bool.not_eq_true] at hc
          simp [hc0, hb0]
    · by_cases hfit : 0 < p.cnt ∧ m < p.cnt + b.length
      · have hfs : 0 < s.cnt ∧ m < s.cnt + b.length := by rw [h3]; exact hfit
        rw [splitStep_eq_flush m s b hb0 hov hfs, packStep_eq_flush m p b hb0 hov hfit]
        refine ⟨⟨?_, by simp [h2], rfl, ?_, by simp,
          by show b.length ≤ m; omega, ?_⟩, ?_⟩
        · simp [h1, h2, groupText]
        · intro x hx
          simp only [List.mem_singleton] at hx
          subst hx; exact hb'
        · intro g hg
          simp only [List.mem_append, List.mem_singleton] at hg
          rcases hg with hg | hg
          · exact h7 g hg
          · subst hg; exact Or.inl (by omega)
        · simp [hb0]
      · have hfs : ¬(0 < s.cnt ∧ m < s.cnt + b.length) := by rw [h3]; exact hfit
        rw [splitStep_eq_app m s b hb0 hov hfs, packStep_eq_app m p b hb0 hov hfit]
        refine ⟨⟨h1, by simp [h2], by simp [h3], ?_, by simp [h5], ?_, h7⟩, ?_⟩
        · intro x hx
          simp only [List.mem_append, List.mem_singleton] at hx
          rcases hx with hx | hx
          · exact h4 x hx
          · subst hx; exact hb'
        · show p.cnt + b.length ≤ m
          rcases Nat.eq_zero_or_pos p.cnt with hz | hpos
          · omega
          · have : ¬ m < p.cnt + b.length := fun hlt => hfit ⟨hpos, hlt⟩
            omega
        · simp [hb0]

theorem corr_foldl (m : Nat) (blocks : List (List Txt)) :
    ∀ (s : SplitSt) (p : PackSt), CorrInv m s p →
    CorrInv m (blocks.foldl (splitStep m) s) (blocks.foldl (packStep m) p) ∧
    (blocks.foldl (packStep m) p).groups.flatten
        ++ (blocks.foldl (packStep m) p).cur
      = (p.groups.flatten ++ p.cur)
        ++ blocks.filter (fun b => !b.isEmpty) := by
  induction blocks with
  | nil => intro s p h; exact ⟨h, by simp⟩
  | cons b bs ih =>
    intro s p h
    obtain ⟨hstep, heq⟩ := corr_step m s p b h
    obtain ⟨hinv, heq2⟩ := ih _ _ hstep
    refine ⟨hinv, ?_⟩
    simp only [List.foldl_cons]
    rw [heq2, heq]
    by_cases hb : b.isEmpty
    · simp [hb]
    · have hb0 : b.isEmpty = false := by rwa [Bool.not_eq_true] at hb
      simp [hb0]

/--
Claim C2: Every segment returned by the splitter is a concatenation of
whole blocks (so no block is divided across two segments), and each
segment's line total is within the budget unless it is a single
oversized block.
-/
theorem splitter_segments_whole_blocks (content : Txt) (maxLines : Nat)
    (h : 1 ≤ maxLines) :
    ∃ gs : List (List (List Txt)),
      split_content_smart content maxLines = gs.map groupText ∧
      gs.flatten
        = (blocksOf (splitlinesKeepends content)).filter (fun b => !b.isEmpty) ∧
      ∀ g ∈ gs, (g.map List.length).sum ≤ maxLines ∨
        ∃ b, g = [b] ∧ maxLines < b.length := by
  by_cases h0 : content.isEmpty
  · have hc : content = [] := by simpa using h0
    refine ⟨[], ?_, ?_, by simp⟩
    · simp [split_content_smart, hc]
    · subst hc
      have : splitlinesKeepends [] = [] := rfl
      rw [this]
      rfl
  · have hlines : (splitlinesKeepends content).isEmpty = false := by
      cases hsl : splitlinesKeepends content with
      | nil =>
        exfalso
        have h3 := splitlinesKeepends_flatten content
        rw [hsl] at h3
        simp only [List.flatten_nil] at h3
        subst h3
        exact h0 rfl
      | cons a l => rfl
    have h0' : content.isEmpty = false := by rwa [Bool.not_eq_true] at h0
    have hinit : CorrInv maxLines ⟨[], [], 0⟩ ⟨[], [], 0⟩ :=
      ⟨rfl, rfl, rfl, by simp, rfl, Nat.zero_le maxLines, by simp⟩
    obtain ⟨hinv, heq⟩ :=
      corr_foldl maxLines (blocksOf (splitlinesKeepends content)) _ _ hinit
    set s := (blocksOf (splitlinesKeepends content)).foldl
      (splitStep maxLines) ⟨[], [], 0⟩ with hs
    set p := (blocksOf (splitlinesKeepends content)).foldl
      (packStep maxLines) ⟨[], [], 0⟩ with hp
    obtain ⟨h1, h2, h3, h4, h5, h6, h7⟩ := hinv
    refine ⟨p.groups ++ (if p.cur.isEmpty then [] else [p.cur]), ?_, ?_, ?_⟩
    · simp only [split_content_smart, h0', hlines, Bool.false_eq_true, if_false]
      rw [← hs]
      by_cases hc : p.cur.isEmpty
      · have hcs : s.cur.isEmpty = true := by
          rw [h2]; rw [flatten_isEmpty_sync p.cur h4]; exact hc
        simp [hcs, hc, h1]
      · have hcs : s.cur.isEmpty = false := by
          rw [h2, flatten_isEmpty_sync p.cur h4]
          rwa [Bool.not_eq_true] at hc
        have hc0 : p.cur.isEmpty = false := by rwa [Bool.not_eq_true] at hc
        simp only [hcs, Bool.false_eq_true, if_false]
        simp only [hc0, Bool.false_eq_true, if_false]
        simp only [List.map_append, List.map_cons, List.map_nil, h1, h2]
        rfl
    · rw [List.flatten_append]
      by_cases hc : p.cur.isEmpty
      · have hc' : p.cur = [] := by simpa [List.isEmpty_iff] using hc
        simpa [hc, hc'] using heq
      · simpa [hc] using heq
    · intro g hg
      simp only [List.mem_append] at hg
      rcases hg with hg | hg
      · exact h7 g hg
      · by_cases hc : p.cur.isEmpty
        · simp [hc] at hg
        · simp only [hc, Bool.false_eq_true, if_false, List.mem_singleton] at hg
          subst hg
          exact Or.inl (by omega)

/-- Witness for C2 at a concrete input. -/
theorem splitter_segments_whole_blocks_witness :
    1 ≤ 2 ∧
    (∃ gs : List (List (List Txt)),
      split_content_smart (strL ">>>File: a\nx\ny\n>>>File: b\nz\n") 2
          = gs.map groupText ∧
      gs.flatten
        = (blocksOf (splitlinesKeepends
            (strL ">>>File: a\nx\ny\n>>>File: b\nz\n"))).filter
              (fun b => !b.isEmpty) ∧
      ∀ g ∈ gs, (g.map List.length).sum ≤ 2 ∨
        ∃ b, g = [b] ∧ 2 < b.length) :=
  ⟨by decide,
    splitter_segments_whole_blocks (strL ">>>File: a\nx\ny\n>>>File: b\nz\n") 2
      (by decide)⟩

/-- Witness for C1 at a concrete input. -/
theorem splitter_lossless_witness :
    1 ≤ 2 ∧
    ((split_content_smart (strL ">>>File: a\nx\ny\n>>>File: b\nz\n") 2).flatten
        = strL ">>>File: a\nx\ny\n>>>File: b\nz\n" ∧
      (strL ">>>File: a\nx\ny\n>>>File: b\nz\n" = [] →
        split_content_smart (strL ">>>File: a\nx\ny\n>>>File: b\nz\n") 2 = [])) :=
  ⟨by decide, splitter_lossless (strL ">>>File: a\nx\ny\n>>>File: b\nz\n") 2 (by decide)⟩

/-!
### Gitignore matcher lemmas
-/

/-- A loop iteration either produces no verdict or the verdict given by
the pattern's polarity (negated patterns return `false`, standard ones
`true`). -/
theorem gitignoreStep_cases (p0 path : Txt) (isDir : Bool) :
    gitignoreStep p0 path isDir = none ∨
    gitignoreStep p0 path isDir = some (!txtStartsWith p0 (strL "!")) := by
  simp only [gitignoreStep]
  split_ifs <;> simp

/-- One loop iteration returns a verdict exactly when the pattern
matches, and the verdict is the pattern's polarity. -/
theorem gitignoreStep_eq (p0 path : Txt) (isDir : Bool) :
    gitignoreStep p0 path isDir
      = if patternMatches p0 path isDir then some (!txtStartsWith p0 (strL "!"))
        else none := by
  rcases gitignoreStep_cases p0 path isDir with h | h <;>
    simp [patternMatches, h]

/--
Claim C3: The gitignore exclusion check is decided by the first pattern
(in declaration order) that matches: if no earlier pattern matches and
`q` matches, the verdict is `true` for a standard pattern and `false`
for a negated one, independently of all later patterns; and if no
pattern matches at all, the verdict is `false`.
-/
theorem gitignore_first_match_wins (ps₁ : List Txt) (q : Txt) (ps₂ : List Txt)
    (path : Txt) (isDir : Bool)
    (hfirst : ∀ r ∈ ps₁, patternMatches r path isDir = false) :
    (patternMatches q path isDir = true →
      is_excluded_by_gitignore (ps₁ ++ q :: ps₂) path isDir
        = !txtStartsWith q (strL "!")) ∧
    is_excluded_by_gitignore ps₁ path isDir = false := by
  induction ps₁ with
  | nil =>
    refine ⟨fun hq => ?_, rfl⟩
    simp [is_excluded_by_gitignore, gitignoreStep_eq, hq]
  | cons r rest ih =>
    have hr : patternMatches r path isDir = false := hfirst r (by simp)
    have ih2 := ih (fun x hx => hfirst x (by simp [hx]))
    refine ⟨fun hq => ?_, ?_⟩
    · simp only [List.cons_append, is_excluded_by_gitignore, gitignoreStep_eq,
        hr, Bool.false_eq_true, if_false]
      exact ih2.1 hq
    · simp only [is_excluded_by_gitignore, gitignoreStep_eq, hr,
        Bool.false_eq_true, if_false]
      exact ih2.2

/-- Witness for C3 at a concrete input. -/
theorem gitignore_first_match_wins_witness :
    is_excluded_by_gitignore [strL "xa", strL "keep", strL "zz"]
      (strL "keep") false = true ∧
    is_excluded_by_gitignore [strL "xa"] (strL "keep") false = false := by
  have h := gitignore_first_match_wins [strL "xa"] (strL "keep") [strL "zz"]
    (strL "keep") false (by decide)
  refine ⟨?_, h.2⟩
  calc is_excluded_by_gitignore [strL "xa", strL "keep", strL "zz"]
        (strL "keep") false
      = !txtStartsWith (strL "keep") (strL "!") := h.1 (by decide)
    _ = true := by decide

/-- A degenerate pattern never produces a verdict. -/
theorem gitignoreStep_degenerate (p0 path : Txt) (isDir : Bool)
    (hdeg : rstripSlash
      (if txtStartsWith p0 (strL "!") then p0.drop 1 else p0) = []) :
    gitignoreStep p0 path isDir = none := by
  by_cases hneg : txtStartsWith p0 (strL "!")
  · by_cases hp1 : p0.drop 1 = []
    · simp [gitignoreStep, hneg, hp1]
    · have h2 : rstripSlash (p0.drop 1) = [] := by rwa [if_pos hneg] at hdeg
      have hp1t : ¬p0.tail = [] := by rwa [List.drop_one] at hp1
      have h2t : rstripSlash p0.tail = [] := by rwa [List.drop_one] at h2
      simp [gitignoreStep, hneg, hp1t, h2t]
  · have h2 : rstripSlash p0 = [] := by rwa [if_neg hneg] at hdeg
    simp [gitignoreStep, hneg, h2]

/-- A pattern whose step yields no verdict can be removed from any
position of the pattern list without changing the result. -/
theorem is_excluded_skip (p0 path : Txt) (isDir : Bool)
    (hstep : gitignoreStep p0 path isDir = none) :
    ∀ ps₁ ps₂ : List Txt,
      is_excluded_by_gitignore (ps₁ ++ p0 :: ps₂) path isDir
        = is_excluded_by_gitignore (ps₁ ++ ps₂) path isDir := by
  intro ps₁
  induction ps₁ with
  | nil => intro ps₂; simp [is_excluded_by_gitignore, hstep]
  | cons r rest ih =>
    intro ps₂
    simp only [List.cons_append, is_excluded_by_gitignore]
    cases gitignoreStep r path isDir <;> simp [ih]

/--
Claim C10: An ignore pattern that is empty after removing a leading `!`
and trailing `/` characters (such as `"/"`, `"!"`, `"!/"`) matches no
path and never influences the exclusion verdict: the matcher skips it
and continues with the next pattern.
-/
theorem degenerate_pattern_no_effect (p0 path : Txt) (isDir : Bool)
    (ps₁ ps₂ : List Txt)
    (hdeg : rstripSlash
      (if txtStartsWith p0 (strL "!") then p0.drop 1 else p0) = []) :
    patternMatches p0 path isDir = false ∧
    gitignoreStep p0 path isDir = none ∧
    is_excluded_by_gitignore (ps₁ ++ p0 :: ps₂) path isDir
      = is_excluded_by_gitignore (ps₁ ++ ps₂) path isDir := by
  have hstep := gitignoreStep_degenerate p0 path isDir hdeg
  exact ⟨by simp [patternMatches, hstep], hstep,
    is_excluded_skip p0 path isDir hstep ps₁ ps₂⟩

/-- Witness for C10 at a concrete input (`"!/"`). -/
theorem degenerate_pattern_no_effect_witness :
    rstripSlash (if txtStartsWith (strL "!/") (strL "!")
      then (strL "!/").drop 1 else strL "!/") = [] ∧
    (patternMatches (strL "!/") (strL "a") false = false ∧
      gitignoreStep (strL "!/") (strL "a") false = none ∧
      is_excluded_by_gitignore ([strL "a"] ++ strL "!/" :: [strL "b"])
          (strL "a") false
        = is_excluded_by_gitignore ([strL "a"] ++ [strL "b"]) (strL "a") false) :=
  ⟨by decide,
    degenerate_pattern_no_effect (strL "!/") (strL "a") false
      [strL "a"] [strL "b"] (by decide)⟩

/--
Claim C7, counterexample: Loaded ignore lines are not passed verbatim: the
line `"  foo  "` is whitespace-stripped to `"foo"` before being stored,
so the stored pattern differs from the raw line.
-/
theorem load_gitignore_not_verbatim :
    load_gitignore [strL "  foo  "] = [strL "foo"] ∧
    load_gitignore [strL "  foo  "] ≠ [strL "  foo  "] := by
  decide

/--
Claim C7, amended: Loading the ignore file strips each line of surrounding
whitespace, skips lines that are then empty or begin with `#`, and
appends the stripped text of every remaining line in order.
-/
theorem load_gitignore_eq (fileLines : List Txt) :
    load_gitignore fileLines
      = (fileLines.map pyStrip).filter
          (fun l => !l.isEmpty && !txtStartsWith l (strL "#")) := by
  have aux : ∀ (ls acc : List Txt),
      ls.foldl
        (fun patterns line =>
          let l := pyStrip line
          if !l.isEmpty && !txtStartsWith l (strL "#") then patterns ++ [l]
          else patterns)
        acc
      = acc ++ (ls.map pyStrip).filter
          (fun l => !l.isEmpty && !txtStartsWith l (strL "#")) := by
    intro ls
    induction ls with
    | nil => intro acc; simp
    | cons x xs ih =>
      intro acc
      simp only [List.foldl_cons, List.map_cons, List.filter_cons]
      by_cases hx :
          (!(pyStrip x).isEmpty && !txtStartsWith (pyStrip x) (strL "#")) = true
      · simp only [hx, if_true, ih]
        simp
      · have hx' :
            (!(pyStrip x).isEmpty && !txtStartsWith (pyStrip x) (strL "#"))
              = false := by rwa [Bool.not_eq_true] at hx
        simp only [hx', Bool.false_eq_true, if_false, ih]
    -- the `let` in the step function is definitionally transparent
  simpa [load_gitignore] using aux fileLines []

/-!
### C8: rooted wildcard patterns and `/`
-/

theorem matchRun_literal_left (p n : Txt) :
    ∀ a : Txt, (∀ c ∈ a, c ≠ '*' ∧ c ≠ '?') →
      matchRun (a ++ p) (a ++ n) = matchRun p n := by
  intro a
  induction a with
  | nil => intro _; simp
  | cons c t ih =>
    intro ha
    have hc := ha c (by simp)
    have hat : ∀ x ∈ t, x ≠ '*' ∧ x ≠ '?' := fun x hx => ha x (by simp [hx])
    simp only [List.cons_append]
    rw [matchRun.eq_def]
    simp [hc.1, hc.2, ih hat]

theorem matchRun_literal_self (b : Txt) (hb : ∀ c ∈ b, c ≠ '*' ∧ c ≠ '?') :
    matchRun b b = true := by
  have h := matchRun_literal_left [] [] b hb
  simpa [matchRun] using h

theorem matchRun_star_absorb (ps n mid : Txt) (h : matchRun ps n = true) :
    matchRun ('*' :: ps) (mid ++ n) = true := by
  have hstar : matchRun ('*' :: ps) (mid ++ n)
      = (mid ++ n).tails.any (fun s => matchRun ps s) := by
    rw [matchRun.eq_def]
    simp
  rw [hstar, List.any_eq_true]
  exact ⟨n, (List.mem_tails n (mid ++ n)).mpr (List.suffix_append mid n), h⟩

/--
Claim C8, counterexample: The rooted wildcard pattern `/a*b` (no literal
slash after the leading one) matches the relative path `ax/yb`: its `*`
matches across the `/` boundary, contradicting single-segment matching.
-/
theorem rooted_wildcard_crosses_slash :
    patternMatches (strL "/a*b") (strL "ax/yb") false = true ∧
    is_excluded_by_gitignore [strL "/a*b"] (strL "ax/yb") false = true := by
  decide

/--
Claim C8, amended: A rooted pattern `/a*b` (with `a`, `b` wildcard-free and
slash-free) matches every path of the form `a ++ mid ++ b`, for any
`mid` — including `mid` containing `/`: the glob `*` of the pattern
matcher matches across path-segment boundaries (as `fnmatch` gives `/`
no special treatment).
-/
theorem rooted_star_matches_across_segments (a b mid : Txt) (isDir : Bool)
    (ha : ∀ c ∈ a, c ≠ '*' ∧ c ≠ '?' ∧ c ≠ '/')
    (hb : ∀ c ∈ b, c ≠ '*' ∧ c ≠ '?' ∧ c ≠ '/') :
    patternMatches (strL "/" ++ a ++ strL "*" ++ b) (a ++ mid ++ b) isDir
      = true := by
  have hslash : strL "/" = ['/'] := by decide
  have hstar : strL "*" = ['*'] := by decide
  have hassoc : strL "/" ++ a ++ strL "*" ++ b = '/' :: (a ++ '*' :: b) := by
    rw [hslash, hstar]
    simp
  rw [hassoc]
  have hrev : ∃ x xs, (a ++ '*' :: b).reverse = x :: xs ∧ x ≠ '/' := by
    cases hbrev : b.reverse with
    | nil =>
      have hb0 : b = [] := by
        have := congrArg List.reverse hbrev
        simpa using this
      subst hb0
      exact ⟨'*', a.reverse, by simp, by decide⟩
    | cons x t =>
      have hxb : x ∈ b := by
        have hx : x ∈ b.reverse := by rw [hbrev]; simp
        simpa using hx
      refine ⟨x, t ++ '*' :: a.reverse, ?_, (hb x hxb).2.2⟩
      simp [hbrev]
  obtain ⟨x, xs, hx, hxne⟩ := hrev
  have hneg : txtStartsWith ('/' :: (a ++ '*' :: b)) (strL "!") = false := by
    have hbang : strL "!" = ['!'] := by decide
    rw [hbang]
    simp [txtStartsWith]
  have hdirpat : txtEndsWith ('/' :: (a ++ '*' :: b)) (strL "/") = false := by
    unfold txtEndsWith
    rw [hslash]
    simp only [List.reverse_cons, hx, List.cons_append, List.reverse_nil,
      List.nil_append]
    simp [txtStartsWith, hxne]
  have hp2 : rstripSlash ('/' :: (a ++ '*' :: b)) = '/' :: (a ++ '*' :: b) := by
    unfold rstripSlash
    rw [List.reverse_cons, hx]
    simp only [List.cons_append, List.dropWhile_cons, hxne, decide_eq_true_eq,
      if_neg, if_false]
    rw [show (x :: (xs ++ ['/'])) = (x :: xs) ++ ['/'] by simp]
    rw [← hx]
    simp
  have hp3 : lstripSlash ('/' :: (a ++ '*' :: b)) = a ++ '*' :: b := by
    cases ha0 : a with
    | nil =>
      simp [lstripSlash, List.dropWhile_cons]
    | cons y t =>
      have hy : y ≠ '/' := by
        have := (ha y (by simp [ha0])).2.2
        exact this
      simp [lstripSlash, List.dropWhile_cons, hy]
  have hmatch : matchRun (a ++ '*' :: b) (a ++ (mid ++ b)) = true := by
    rw [matchRun_literal_left ('*' :: b) (mid ++ b) a
      (fun c hc => ⟨(ha c hc).1, (ha c hc).2.1⟩)]
    exact matchRun_star_absorb b b mid
      (matchRun_literal_self b (fun c hc => ⟨(hb c hc).1, (hb c hc).2.1⟩))
  have hrooted : txtStartsWith ('/' :: (a ++ '*' :: b)) (strL "/") = true := by
    rw [hslash]
    simp [txtStartsWith]
  have hstep : gitignoreStep ('/' :: (a ++ '*' :: b)) (a ++ (mid ++ b)) isDir
      = some true := by
    simp [gitignoreStep, hneg, hdirpat, hp2, hp3, hrooted, fnmatchcase, hmatch]
  rw [List.append_assoc]
  simp [patternMatches, hstep]

/-- Witness for C8 amended, at a concrete input with `mid = "x/y"`. -/
theorem rooted_star_matches_across_segments_witness :
    (∀ c ∈ strL "a", c ≠ '*' ∧ c ≠ '?' ∧ c ≠ '/') ∧
    (∀ c ∈ strL "b", c ≠ '*' ∧ c ≠ '?' ∧ c ≠ '/') ∧
    patternMatches (strL "/" ++ strL "a" ++ strL "*" ++ strL "b")
      (strL "a" ++ strL "x/y" ++ strL "b") false = true :=
  ⟨by decide, by decide,
    rooted_star_matches_across_segments (strL "a") (strL "b") (strL "x/y")
      false (by decide) (by decide)⟩

/--
**C4 counterexample (matcher level).** The directory pattern `build/`
does not match the file path `build/keep.txt` (a dir-only pattern never
matches a file), so the matcher itself excludes neither file; with the
patterns `["build/", "!build/keep.txt"]` the verdict for the file path
`build/keep.txt` is `false`, not `true`.
-/
theorem dir_pattern_no_file_match :
    patternMatches (strL "build/") (strL "build/keep.txt") false = false ∧
    patternMatches (strL "build/") (strL "build/tmp.o") false = false ∧
    is_excluded_by_gitignore [strL "build/", strL "!build/keep.txt"]
      (strL "build/keep.txt") false = false ∧
    is_excluded_by_gitignore [strL "build/", strL "!build/keep.txt"]
      (strL "build/tmp.o") false = false := by
  decide

/-!
### Tree-collection lemmas
-/

theorem foldl_preserve {α β : Type _} (P : β → Prop) (f : β → α → β)
    (l : List α) (st : β) (h0 : P st)
    (hstep : ∀ b, ∀ a ∈ l, P b → P (f b a)) : P (l.foldl f st) := by
  induction l generalizing st with
  | nil => simpa using h0
  | cons x xs ih =>
    simp only [List.foldl_cons]
    exact ih (f st x) (hstep st x (by simp) h0)
      (fun b a ha hb => hstep b a (List.mem_cons_of_mem x ha) hb)

theorem splitChars_ne_nil (p : Txt) : splitChars p ≠ [] := by
  cases p with
  | nil => simp [splitChars]
  | cons c rest =>
    by_cases h : c = '/'
    · simp [splitChars, h]
    · rcases hs : splitChars rest with _ | ⟨hh, tt⟩ <;>
        simp [splitChars, h, hs]

theorem splitChars_no_slash (ys : Txt) (h : '/' ∉ ys) : splitChars ys = [ys] := by
  induction ys with
  | nil => rfl
  | cons c rest ih =>
    have hc : c ≠ '/' := fun hx => h (by simp [hx])
    have hr : '/' ∉ rest := fun hx => h (by simp [hx])
    simp [splitChars, hc, ih hr]

theorem splitChars_append (r ys : Txt) (h : '/' ∉ ys) :
    splitChars (r ++ '/' :: ys) = splitChars r ++ [ys] := by
  induction r with
  | nil => simp [splitChars, splitChars_no_slash ys h]
  | cons c t ih =>
    by_cases hc : c = '/'
    · subst hc
      simp [splitChars, ih]
    · have hne := splitChars_ne_nil (t ++ '/' :: ys)
      rcases hs : splitChars (t ++ '/' :: ys) with _ | ⟨hh, tt⟩
      · exact absurd hs hne
      · have hts := splitChars_ne_nil t
        rcases ht : splitChars t with _ | ⟨th, ttl⟩
        · exact absurd ht hts
        · have h2 := ih
          rw [hs, ht] at h2
          simp only [List.cons_append] at h2
          rw [List.cons_append]
          simp only [splitChars, hc, hs, ht, if_neg]
          simp_all

theorem splitChars_joinPath (relRoot n : Txt) (hn : '/' ∉ n) :
    splitChars (joinPath relRoot n)
      = (if relRoot = [] then [] else splitChars relRoot) ++ [n] := by
  by_cases h : relRoot = []
  · simp [joinPath, h, splitChars_no_slash n hn]
  · simp [joinPath, h, splitChars_append relRoot n hn]

theorem rootOk_extend (S : List Txt) (relRoot n : Txt)
    (hroot : relRoot = [] ∨ ∀ c ∈ splitChars relRoot, c ∉ S)
    (hn : '/' ∉ n) (hnS : n ∉ S) :
    joinPath relRoot n = [] ∨
      ∀ c ∈ splitChars (joinPath relRoot n), c ∉ S := by
  right
  intro c hc
  rw [splitChars_joinPath relRoot n hn] at hc
  simp only [List.mem_append, List.mem_singleton] at hc
  rcases hc with hc | hc
  · by_cases hr : relRoot = []
    · rw [if_pos hr] at hc; simp at hc
    · rw [if_neg hr] at hc
      rcases hroot with h | h
      · exact absurd h hr
      · exact h c hc
  · subst hc; exact hnS

theorem dirCompsOk_dir (S : List Txt) (relRoot d : Txt)
    (hroot : relRoot = [] ∨ ∀ c ∈ splitChars relRoot, c ∉ S)
    (hd : '/' ∉ d) (hdS : d ∉ S) :
    dirCompsOk S (joinPath relRoot d) true = true := by
  simp only [dirCompsOk, if_true]
  rw [List.all_eq_true]
  intro c hc
  rw [splitChars_joinPath relRoot d hd] at hc
  simp only [List.mem_append, List.mem_singleton] at hc
  rcases hc with hc | hc
  · by_cases hr : relRoot = []
    · rw [if_pos hr] at hc; simp at hc
    · rw [if_neg hr] at hc
      rcases hroot with h | h
      · exact absurd h hr
      · exact decide_eq_true (h c hc)
  · subst hc; exact decide_eq_true hdS

theorem dirCompsOk_file (S : List Txt) (relRoot f : Txt)
    (hroot : relRoot = [] ∨ ∀ c ∈ splitChars relRoot, c ∉ S)
    (hf : '/' ∉ f) :
    dirCompsOk S (joinPath relRoot f) false = true := by
  simp only [dirCompsOk, Bool.false_eq_true, if_false]
  rw [List.all_eq_true]
  intro c hc
  rw [splitChars_joinPath relRoot f hf, List.dropLast_concat] at hc
  by_cases hr : relRoot = []
  · rw [if_pos hr] at hc; simp at hc
  · rw [if_neg hr] at hc
    rcases hroot with h | h
    · exact absurd h hr
    · exact decide_eq_true (h c hc)

theorem dirRegister_good (S : List Txt) (relRoot : Txt) (st : CState) (d : Txt)
    (hgood : ∀ e ∈ st.items, dirCompsOk S e.1 e.2 = true)
    (hok : dirCompsOk S (joinPath relRoot d) true = true) :
    ∀ e ∈ (dirRegister relRoot st d).items, dirCompsOk S e.1 e.2 = true := by
  intro e he
  simp only [dirRegister] at he
  split at he
  · exact hgood e he
  · simp only [List.mem_append, List.mem_singleton] at he
    rcases he with he | he
    · exact hgood e he
    · subst he; exact hok

theorem fileStep_good (S : List Txt) (rules : RuleSet) (relRoot : Txt)
    (st : CState) (f : Txt)
    (hgood : ∀ e ∈ st.items, dirCompsOk S e.1 e.2 = true)
    (hok : dirCompsOk S (joinPath relRoot f) false = true) :
    ∀ e ∈ (fileStep rules relRoot st f).items,
      dirCompsOk S e.1 e.2 = true := by
  intro e he
  simp only [fileStep] at he
  split at he
  · exact hgood e he
  · split at he
    · exact hgood e he
    · split at he
      · exact hgood e he
      · split at he
        · exact hgood e he
        · simp only [List.mem_append, List.mem_singleton] at he
          rcases he with he | he
          · exact hgood e he
          · subst he; exact hok

theorem dirNamesOf_no_slash (children : List FSEntry)
    (hwf : fsWF children = true) : ∀ d ∈ dirNamesOf children, '/' ∉ d := by
  induction children with
  | nil => simp [dirNamesOf]
  | cons e es ih =>
    have hwf2 : entryWF e = true ∧ fsWF es = true := by
      simpa [fsWF, Bool.and_eq_true] using hwf
    intro d hd
    cases e with
    | file n c =>
      simp only [dirNamesOf, List.filterMap_cons] at hd
      exact ih hwf2.2 d hd
    | dir n cs =>
      simp only [dirNamesOf, List.filterMap_cons, List.mem_cons] at hd
      rcases hd with hd | hd
      · subst hd
        have := hwf2.1
        simp only [entryWF, Bool.and_eq_true] at this
        exact of_decide_eq_true this.1
      · exact ih hwf2.2 d hd

theorem fileNamesOf_no_slash (children : List FSEntry)
    (hwf : fsWF children = true) : ∀ f ∈ fileNamesOf children, '/' ∉ f := by
  induction children with
  | nil => simp [fileNamesOf]
  | cons e es ih =>
    have hwf2 : entryWF e = true ∧ fsWF es = true := by
      simpa [fsWF, Bool.and_eq_true] using hwf
    intro f hf
    cases e with
    | dir n cs =>
      simp only [fileNamesOf, List.filterMap_cons] at hf
      exact ih hwf2.2 f hf
    | file n c =>
      simp only [fileNamesOf, List.filterMap_cons, List.mem_cons] at hf
      rcases hf with hf | hf
      · subst hf
        have := hwf2.1
        simp only [entryWF] at this
        exact of_decide_eq_true this
      · exact ih hwf2.2 f hf

theorem fsWF_dir_children (children : List FSEntry) (n : Txt)
    (cs : List FSEntry) (hwf : fsWF children = true)
    (hmem : FSEntry.dir n cs ∈ children) : fsWF cs = true := by
  induction children with
  | nil => simp at hmem
  | cons e es ih =>
    have hwf2 : entryWF e = true ∧ fsWF es = true := by
      simpa [fsWF, Bool.and_eq_true] using hwf
    rcases List.mem_cons.mp hmem with he | he
    · subst he
      have := hwf2.1
      simp only [entryWF, Bool.and_eq_true] at this
      exact this.2
    · exact ih hwf2.2 he

/-- The walk only produces entries whose directory components avoid the
excluded-directory-name set. -/
theorem runWalk_good (rules : RuleSet) :
    ∀ (fuel : Nat) (relRoot : Txt) (children : List FSEntry) (st : CState),
      fsWF children = true →
      (relRoot = [] ∨
        ∀ c ∈ splitChars relRoot, c ∉ rules.exclude_dirs) →
      (∀ e ∈ st.items, dirCompsOk rules.exclude_dirs e.1 e.2 = true) →
      ∀ e ∈ (runWalk rules fuel relRoot children st).items,
        dirCompsOk rules.exclude_dirs e.1 e.2 = true := by
  intro fuel
  induction fuel with
  | zero =>
    intro relRoot children st _ _ hgood
    simpa [runWalk] using hgood
  | succ n ih =>
    intro relRoot children st hwf hroot hgood
    simp only [runWalk]
    refine foldl_preserve
      (fun s : CState => ∀ e : Txt × Bool, e ∈ s.items →
        dirCompsOk rules.exclude_dirs e.1 e.2 = true)
      _ children _ ?_ ?_
    · refine foldl_preserve
        (fun s : CState => ∀ e : Txt × Bool, e ∈ s.items →
          dirCompsOk rules.exclude_dirs e.1 e.2 = true)
        _ (fileNamesOf children) _ ?_ ?_
      · refine foldl_preserve
          (fun s : CState => ∀ e : Txt × Bool, e ∈ s.items →
            dirCompsOk rules.exclude_dirs e.1 e.2 = true)
          _ _ _ hgood ?_
        intro b d hd hb
        have hd1 : d ∈ (dirNamesOf children).filter
            (fun d => decide (d ∉ rules.exclude_dirs)) := by
          exact (List.mem_filter.mp hd).1
        have hdn : d ∈ dirNamesOf children := (List.mem_filter.mp hd1).1
        have hdS : d ∉ rules.exclude_dirs :=
          of_decide_eq_true (List.mem_filter.mp hd1).2
        exact dirRegister_good rules.exclude_dirs relRoot b d hb
          (dirCompsOk_dir rules.exclude_dirs relRoot d hroot
            (dirNamesOf_no_slash children hwf d hdn) hdS)
      · intro b f hf hb
        exact fileStep_good rules.exclude_dirs rules relRoot b f hb
          (dirCompsOk_file rules.exclude_dirs relRoot f hroot
            (fileNamesOf_no_slash children hwf f hf))
    · intro b e he hb
      cases e with
      | file nm c => simpa using hb
      | dir nm cs =>
        simp only []
        by_cases hmem : nm ∈ ((dirNamesOf children).filter
            (fun d => decide (d ∉ rules.exclude_dirs))).filter
            (fun d => !is_excluded_by_gitignore rules.gitignore_patterns
              (joinPath relRoot d) true)
        · rw [if_pos hmem]
          have hnm1 := (List.mem_filter.mp hmem).1
          have hnmS : nm ∉ rules.exclude_dirs :=
            of_decide_eq_true (List.mem_filter.mp hnm1).2
          have hnmn : '/' ∉ nm :=
            dirNamesOf_no_slash children hwf nm (List.mem_filter.mp hnm1).1
          exact ih (joinPath relRoot nm) cs b
            (fsWF_dir_children children nm cs hwf he)
            (rootOk_extend rules.exclude_dirs relRoot nm hroot hnmn hnmS)
            hb
        · rw [if_neg hmem]
          exact hb

/--
Claim C5: For every rule set and every well-formed tree, a directory
whose base name is in `exclude_dirs` contributes nothing to the
collected tree: every collected entry's path passes only through
directories whose names are outside the excluded set (the excluded
directory itself and all its descendants are absent, since any such
entry would have an excluded component).
-/
theorem excluded_dir_prunes_subtree (rules : RuleSet) (fs : List FSEntry)
    (hwf : fsWF fs = true) (p : Txt) (b : Bool)
    (hmem : (p, b) ∈ collectTree rules fs) :
    dirCompsOk rules.exclude_dirs p b = true := by
  simp only [collectTree] at hmem
  have hperm := List.perm_insertionSort (fun x y => entryLeB x y = true)
    ((runWalk rules (listFuel fs + 1) [] fs ⟨[], []⟩).items)
  have hmem2 : (p, b) ∈ (runWalk rules (listFuel fs + 1) [] fs ⟨[], []⟩).items :=
    hperm.mem_iff.mp hmem
  exact runWalk_good rules (listFuel fs + 1) [] fs ⟨[], []⟩ hwf (Or.inl rfl)
    (by simp) (p, b) hmem2

/-- Witness for C5 at a concrete input. -/
theorem excluded_dir_prunes_subtree_witness :
    fsWF exampleTreeC5 = true ∧
    (strL "a/f.txt", false) ∈ collectTree exampleRulesC5 exampleTreeC5 ∧
    dirCompsOk exampleRulesC5.exclude_dirs (strL "a/f.txt") false = true :=
  ⟨by decide, by decide,
    excluded_dir_prunes_subtree exampleRulesC5 exampleTreeC5 (by decide)
      (strL "a/f.txt") false (by decide)⟩

/--
Claim C6, counterexample: With the default exclusions and no ignore file,
`a/b/y.log` does not appear in the collected tree (so the claimed tree
`{a, a/x.py, a/b, a/b/y.log}` is wrong): its extension `.log` is in
`DEFAULT_EXCLUDE_EXTENSIONS`, which removes the file from the tree, not
only from content processing.
-/
theorem log_file_not_in_tree :
    (strL "a/b/y.log", false) ∉ collectTree defaultRuleSet exampleTreeC6 ∧
    lowerTxt (extOf (strL "y.log")) ∈ defaultRuleSet.exclude_extensions := by
  decide

/--
Claim C6, amended: For the root `{a/x.py, a/b/y.log, node_modules/z.js}`
with the default exclusions and no ignore file, the collected tree is
exactly `{a (dir), a/b (dir), a/x.py}`: `node_modules` and its content
are pruned entirely, and `a/b/y.log` is excluded by its extension.
-/
theorem collect_tree_C6 :
    collectTree defaultRuleSet exampleTreeC6
      = [(strL "a", true), (strL "a/b", true), (strL "a/x.py", false)] := by
  decide

/--
Claim C4, amended: With patterns `["build/", "!build/keep.txt"]` and files
`build/tmp.o`, `build/keep.txt`, both files are absent from the
collected tree, but through pruning: the dir-only pattern `build/`
matches the directory `build` itself, whose whole subtree is therefore
never walked; the pattern never matches the file paths (see
`dir_pattern_no_file_match`) and the negation is never consulted.
-/
theorem build_subtree_pruned :
    collectTree exampleRulesC4 exampleTreeC4 = [] ∧
    is_excluded_by_gitignore exampleRulesC4.gitignore_patterns
      (strL "build") true = true := by
  decide

/-!
### Output format (C9)
-/

theorem outputStep_true_false (readFile : Txt → Txt)
    (ls cs : List Txt) (e : Txt × Bool) :
    outputStep readFile true false (ls, cs) e
      = (ls ++ [(List.replicate (e.1.count '/') (strL "  ")).flatten ++
          (if e.2 then strL "\u00f0\u0178\u201c " else strL "\u00f0\u0178\u201c\u201e ") ++ basenameOf e.1],
         if e.2 then cs
         else cs ++ [strL ">>>File: " ++ e.1 ++ strL "\n\n" ++ readFile e.1 ++
           strL "\n\n" ++ List.replicate 40 '=' ++ strL "\n"]) := by
  by_cases he : e.2
  · simp [outputStep, he]
  · have he0 : e.2 = false := by rwa [Bool.not_eq_true] at he
    simp [outputStep, he0]

theorem generateOutput_loop (readFile : Txt → Txt) (items : List (Txt × Bool)) :
    ∀ ls cs : List Txt,
      items.foldl (outputStep readFile true false) (ls, cs)
      = (ls ++ items.map (fun e =>
            (List.replicate (e.1.count '/') (strL "  ")).flatten ++
              (if e.2 then strL "\u00f0\u0178\u201c " else strL "\u00f0\u0178\u201c\u201e ") ++ basenameOf e.1),
         cs ++ items.filterMap (fun e =>
            if e.2 then none
            else some (strL ">>>File: " ++ e.1 ++ strL "\n\n" ++ readFile e.1 ++
              strL "\n\n" ++ List.replicate 40 '=' ++ strL "\n"))) := by
  induction items with
  | nil => intro ls cs; simp
  | cons e es ih =>
    intro ls cs
    simp only [List.foldl_cons, List.map_cons, List.filterMap_cons]
    rw [outputStep_true_false]
    by_cases he : e.2
    · simp only [he, if_true]
      rw [ih]
      simp
    · have he0 : e.2 = false := by rwa [Bool.not_eq_true] at he
      simp only [he0, Bool.false_eq_true, if_false]
      rw [ih]
      simp

/--
Claim C9: With the structure summary requested and structure-only off,
the generated output is bit-exact in the specified format: the summary
is the fixed two-line header followed by one line per entry — two
spaces per directory depth (the count of `/` in the relative path), the
program's directory or file marker (the mojibake literals
`U+00F0 U+0178 U+201C` + space and `U+00F0 U+0178 U+201C U+201E` +
space that the source stores), and the base name only — and the
combined content is the concatenation, per file entry, of
`">>>File: " ++ path ++ "\n\n" ++ content ++ "\n\n" ++ forty "=" ++ "\n"`.
-/
theorem output_format (items : List (Txt × Bool)) (readFile : Txt → Txt) :
    (generateOutput items readFile true false).1
      = strL "Directory Structure:\n====================\n" ++
        List.intercalate (strL "\n")
          (items.map (fun e =>
            (List.replicate (e.1.count '/') (strL "  ")).flatten ++
              (if e.2 then strL "\u00f0\u0178\u201c " else strL "\u00f0\u0178\u201c\u201e ") ++ basenameOf e.1)) ++
        strL "\n\n" ∧
    (generateOutput items readFile true false).2
      = (items.filterMap (fun e =>
          if e.2 then none
          else some (strL ">>>File: " ++ e.1 ++ strL "\n\n" ++ readFile e.1 ++
            strL "\n\n" ++ List.replicate 40 '=' ++ strL "\n"))).flatten := by
  simp only [generateOutput]
  rw [generateOutput_loop readFile items [] []]
  constructor
  · simp
  · simp
